import Mathlib

/-!
# Verification of the AST-parent-resolution core of VSCodeStructuredEditing

Shallow embedding of `src/clangd/editor-services.ts`.  The file contains two
revisions of the same module, separated by a marker:

* revision A (lines 1-208): `areEqual` compares ranges only; its
  `getParentFromAncestor` implements the compound-collapse policy by calling
  the orchestrator (`getParentAstNode`) on a matching `Compound` ancestor.
* revision B (lines 209-538): `areEqual` compares ranges and kinds and
  unwraps `ImplicitCast` nodes; `getParentFromAncestor` has no compound
  handling; `getParentAstNode` adds the result cache, the `Function`
  shortcut, the function-prototype anchor probe, the line/character backward
  scan with the whole-document-root fallback at line 0, and the
  `getParentIfImplicitCast` post-processing; `highlightAstNodeUnderCursor`
  adds version-based cache invalidation.

The language service (`textDocument/ast` point queries), the document text
accessors and the cursor-position arithmetic are external collaborators: the
service is modelled as an oracle (`Env.query` / `Env.root`), the document as
a list of line texts.  TypeScript exceptions (failed `assert`, access to a
member of `undefined`) are modelled with `Except Unit` / explicit `thrown`
results; the asynchronous scan loops, which can genuinely diverge, are
modelled with explicit fuel.
-/

/-- A (line, character) text position, as in the LSP protocol. -/
structure Pos where
  line : Nat
  character : Nat
deriving DecidableEq, Repr

/-- A half-open source range, `range.start` to `range.«end»`. -/
structure Range where
  start : Pos
  «end» : Pos
deriving DecidableEq, Repr

/-- The AST node shape returned by a `textDocument/ast` point query:
a kind tag, an optional range (absent on the synthetic whole-file root),
an optional ordered child list and optional detail text. -/
inductive ASTNode : Type where
  | mk (kind : String) (range : Option Range) (children : Option (List ASTNode))
       (detail : Option String)
deriving Repr

/-- The node's kind tag. -/
def ASTNode.kind : ASTNode → String
  | .mk k _ _ _ => k

/-- The node's optional source range. -/
def ASTNode.range : ASTNode → Option Range
  | .mk _ r _ _ => r

/-- The node's optional child list. -/
def ASTNode.children : ASTNode → Option (List ASTNode)
  | .mk _ _ c _ => c

/-- The node's optional detail string. -/
def ASTNode.detail : ASTNode → Option String
  | .mk _ _ _ d => d

/-- `a.children![0]` as an optional value: the first child when the children
list is present and non-empty. -/
def icHead (a : ASTNode) : Option ASTNode :=
  a.children.bind List.head?

theorem sizeOf_lt_of_mem_children {a c : ASTNode} {l : List ASTNode}
    (hc : a.children = some l) (hm : c ∈ l) : sizeOf c < sizeOf a := by
  cases a with
  | mk k r ch d =>
    simp only [ASTNode.children] at hc
    subst hc
    have h1 : sizeOf c < sizeOf l := List.sizeOf_lt_of_mem hm
    simp only [ASTNode.mk.sizeOf_spec, Option.some.sizeOf_spec]
    omega

theorem sizeOf_children_lt {a : ASTNode} {l : List ASTNode}
    (hc : a.children = some l) : sizeOf l < sizeOf a := by
  cases a with
  | mk k r ch d =>
    simp only [ASTNode.children] at hc
    subst hc
    simp only [ASTNode.mk.sizeOf_spec, Option.some.sizeOf_spec]
    omega

theorem sizeOf_icHead {a x : ASTNode} (h : icHead a = some x) :
    sizeOf x < sizeOf a := by
  unfold icHead at h
  cases hc : a.children with
  | none => rw [hc] at h; exact Option.noConfusion h
  | some l =>
    rw [hc] at h
    exact sizeOf_lt_of_mem_children hc (List.mem_of_mem_head? h)

namespace RevA

/-- Revision A `areEqual` (lines 69-75): loose (`==`) comparison of the four
optional range coordinates; the kind is not compared.  In JavaScript
`undefined == undefined` is true and `undefined == n` is false, which is
exactly `Option` equality on each projected coordinate. -/
def areEqual (a b : ASTNode) : Bool :=
  a.range.map (fun r => r.start.line) == b.range.map (fun r => r.start.line)
  && a.range.map (fun r => r.start.character) == b.range.map (fun r => r.start.character)
  && a.range.map (fun r => r.«end».line) == b.range.map (fun r => r.«end».line)
  && a.range.map (fun r => r.«end».character) == b.range.map (fun r => r.«end».character)

end RevA

namespace RevB

/-- The first disjunct of revision B `areEqual` (lines 311-316): strict
equality of the four range coordinates and of the kinds. -/
def baseEq (a b : ASTNode) : Bool :=
  a.range.map (fun r => r.start.line) == b.range.map (fun r => r.start.line)
  && a.range.map (fun r => r.start.character) == b.range.map (fun r => r.start.character)
  && a.range.map (fun r => r.«end».line) == b.range.map (fun r => r.«end».line)
  && a.range.map (fun r => r.«end».character) == b.range.map (fun r => r.«end».character)
  && a.kind == b.kind

theorem baseEq_symm (a b : ASTNode) : baseEq a b = baseEq b a := by
  unfold baseEq
  cases a.range <;> cases b.range <;>
    simp [Bool.and_comm, Bool.and_left_comm, BEq.comm]

/-- Revision B `areEqual` (lines 310-320).  The three JavaScript disjuncts
are evaluated left to right with short-circuiting; `a.children![0]` on an
`ImplicitCast` node whose children list is absent or empty throws a
`TypeError`, modelled as `Except.error ()`. -/
def areEqual (a b : ASTNode) : Except Unit Bool :=
  if baseEq a b then .ok true
  else
    match (if a.kind = "ImplicitCast" then
             match ha : icHead a with
             | none => Except.error ()
             | some x => areEqual x b
           else .ok false) with
    | .error e => .error e
    | .ok true => .ok true
    | .ok false =>
        if b.kind = "ImplicitCast" then
          match hb : icHead b with
          | none => .error ()
          | some y => areEqual y a
        else .ok false
termination_by sizeOf a + sizeOf b
decreasing_by
  · have := sizeOf_icHead ha; omega
  · have := sizeOf_icHead hb; omega

end RevB

mutual

/-- Well-formedness of a query result tree: every node tagged `ImplicitCast`
carries at least one child (so `children![0]` is defined), recursively.
Real clangd trees satisfy this; the code assumes it without checking. -/
def wfNode (n : ASTNode) : Bool :=
  (n.kind != "ImplicitCast" || (icHead n).isSome) &&
  (match hc : n.children with
   | none => true
   | some l => wfList l)
termination_by sizeOf n
decreasing_by
  exact sizeOf_children_lt hc

/-- All nodes of a list are well-formed. -/
def wfList : List ASTNode → Bool
  | [] => true
  | c :: t => wfNode c && wfList t
termination_by l => sizeOf l

end

theorem wfNode_icHead {n : ASTNode} (h : wfNode n = true)
    (hk : n.kind = "ImplicitCast") : ∃ x, icHead n = some x := by
  rw [wfNode] at h
  simp only [Bool.and_eq_true, Bool.or_eq_true, bne_iff_ne] at h
  rcases h.1 with h1 | h1
  · exact absurd hk h1
  · exact Option.isSome_iff_exists.mp h1

theorem wfList_mem {l : List ASTNode} {c : ASTNode}
    (h : wfList l = true) (hm : c ∈ l) : wfNode c = true := by
  induction l with
  | nil => cases hm
  | cons a t ih =>
    rw [wfList] at h
    simp only [Bool.and_eq_true] at h
    rcases List.mem_cons.mp hm with rfl | hm2
    · exact h.1
    · exact ih h.2 hm2

theorem wfNode_child {n c : ASTNode} {l : List ASTNode} (h : wfNode n = true)
    (hc : n.children = some l) (hm : c ∈ l) : wfNode c = true := by
  rw [wfNode] at h
  simp only [Bool.and_eq_true] at h
  have h2 := h.2
  split at h2
  · rename_i heq; rw [hc] at heq; exact Option.noConfusion heq
  · rename_i l' heq
    rw [hc] at heq
    cases heq
    exact wfList_mem h2 hm

theorem wfNode_icHead_wf {n x : ASTNode} (h : wfNode n = true)
    (hx : icHead n = some x) : wfNode x = true := by
  unfold icHead at hx
  cases hc : n.children with
  | none => rw [hc] at hx; exact Option.noConfusion hx
  | some l =>
    rw [hc] at hx
    exact wfNode_child h hc (List.mem_of_mem_head? hx)

namespace RevB

mutual

/-- Helper for the DFS loop of revision B `getParentFromAncestor`
(lines 342-351): scan the ancestor's children in order; a child `areEqual`
to the descendant makes the ancestor the parent; otherwise recurse into the
child and propagate a hit.  Errors thrown by `areEqual` propagate. -/
def searchChildren (anc desc : ASTNode) : List ASTNode → Except Unit (Option ASTNode)
  | [] => .ok none
  | c :: t =>
    match areEqual c desc with
    | .error e => .error e
    | .ok true => .ok (some anc)
    | .ok false =>
      match getParentFromAncestor c desc with
      | .error e => .error e
      | .ok (some r) => .ok (some r)
      | .ok none => searchChildren anc desc t
termination_by l => sizeOf l

/-- Revision B `getParentFromAncestor` (lines 334-355): pre-order DFS for
the direct parent of `desc` inside the subtree rooted at `anc`; an ancestor
without a children list yields nothing.  (The `vimState` parameter of the
source is unused by this revision and omitted; the null-checks on the
non-nullable node parameters cannot fire in the typed model.) -/
def getParentFromAncestor (anc desc : ASTNode) : Except Unit (Option ASTNode) :=
  match hc : anc.children with
  | none => .ok none
  | some l => searchChildren anc desc l
termination_by sizeOf anc
decreasing_by
  exact sizeOf_children_lt hc

end

end RevB

namespace RevA

mutual

/-- Helper for the DFS loop of revision A `getParentFromAncestor`
(lines 97-120), including the compound-collapse policy: on a direct match
whose ancestor is a `Compound` block, the ancestor's own parent is resolved
through the orchestrator `getParentAstNode` — modelled by the oracle
`orch` — and returned unless it is itself a `Compound`; a null orchestrator
answer fails the `assert(grandParent)` (modelled as `Except.error`). -/
def searchChildren (orch : ASTNode → Option ASTNode) (anc desc : ASTNode) :
    List ASTNode → Except Unit (Option ASTNode)
  | [] => .ok none
  | c :: t =>
    if areEqual c desc then
      if anc.kind = "Compound" then
        match orch anc with
        | none => .error ()
        | some gp => if gp.kind ≠ "Compound" then .ok (some gp) else .ok (some anc)
      else .ok (some anc)
    else
      match getParentFromAncestor orch c desc with
      | .error e => .error e
      | .ok (some r) => .ok (some r)
      | .ok none => searchChildren orch anc desc t
termination_by l => sizeOf l

/-- Revision A `getParentFromAncestor` (lines 89-124).  Its call to the
orchestrator `getParentAstNode(potentialAncestor)` — an async round-trip
through document scanning and point queries — is modelled by the oracle
parameter `orch`. -/
def getParentFromAncestor (orch : ASTNode → Option ASTNode) (anc desc : ASTNode) :
    Except Unit (Option ASTNode) :=
  match hc : anc.children with
  | none => .ok none
  | some l => searchChildren orch anc desc l
termination_by sizeOf anc
decreasing_by
  exact sizeOf_children_lt hc

end

end RevA

namespace RevB

/-- One disjunct of revision B `areEqual`: `y.kind === 'ImplicitCast' &&
areEqual(y.children![0], z)`, with the `TypeError` on a missing first child
modelled as `Except.error ()`. -/
def unwrapStep (a b : ASTNode) : Except Unit Bool :=
  if a.kind = "ImplicitCast" then
    match ha : icHead a with
    | none => Except.error ()
    | some x => areEqual x b
  else .ok false

/-- `areEqual` restated through `unwrapStep`, mirroring the source's three
short-circuited disjuncts. -/
theorem areEqual_eq (a b : ASTNode) :
    areEqual a b =
      if baseEq a b then .ok true
      else match unwrapStep a b with
        | .error _ => .error ()
        | .ok true => .ok true
        | .ok false => unwrapStep b a := by
  rw [areEqual.eq_def]
  unfold unwrapStep
  rfl

end RevB

/-! ## Auxiliary lemmas for the DFS functions -/

/-- Revision A's DFS loop skips a prefix of children that neither match the
descendant nor contain it. -/
theorem RevA.searchChildren_drop (orch : ASTNode → Option ASTNode)
    (anc desc : ASTNode) (l1 l2 : List ASTNode)
    (hl : ∀ c ∈ l1, RevA.areEqual c desc = false ∧
        RevA.getParentFromAncestor orch c desc = .ok none) :
    RevA.searchChildren orch anc desc (l1 ++ l2) =
      RevA.searchChildren orch anc desc l2 := by
  induction l1 with
  | nil => simp
  | cons c t ihl =>
    have h := hl c (List.mem_cons_self c t)
    rw [List.cons_append]
    simp only [RevA.searchChildren, h.1, h.2]
    exact ihl fun e he => hl e (List.mem_cons_of_mem _ he)

/-- Postcondition of revision B's DFS loop, given the postcondition for the
recursive calls on the listed children. -/
theorem RevB.searchChildren_post
    (anc desc p : ASTNode) (l0 : List ASTNode) (hc : anc.children = some l0)
    (IH : ∀ c ∈ l0, ∀ p', RevB.getParentFromAncestor c desc = .ok (some p') →
        ∃ l, p'.children = some l ∧ ∃ e ∈ l, RevB.areEqual e desc = .ok true) :
    ∀ l, (∀ c ∈ l, c ∈ l0) → RevB.searchChildren anc desc l = .ok (some p) →
      ∃ l', p.children = some l' ∧ ∃ e ∈ l', RevB.areEqual e desc = .ok true := by
  intro l
  induction l with
  | nil => intro _ h; simp [RevB.searchChildren] at h
  | cons c t ihl =>
    intro hsub h
    simp only [RevB.searchChildren] at h
    cases he : RevB.areEqual c desc with
    | error e => rw [he] at h; simp at h
    | ok b =>
      rw [he] at h
      cases b with
      | true =>
        simp only [Except.ok.injEq, Option.some.injEq] at h
        subst h
        exact ⟨l0, hc, c, hsub c (List.mem_cons_self c t), he⟩
      | false =>
        cases hg : RevB.getParentFromAncestor c desc with
        | error e => rw [hg] at h; simp at h
        | ok o =>
          rw [hg] at h
          cases o with
          | some r =>
            simp only [Except.ok.injEq, Option.some.injEq] at h
            subst h
            exact IH c (hsub c (List.mem_cons_self c t)) _ hg
          | none =>
            exact ihl (fun e he => hsub e (List.mem_cons_of_mem _ he)) h

/-- Postcondition of revision B `getParentFromAncestor`, by strong induction
on the size of the candidate ancestor. -/
theorem RevB.getParentFromAncestor_post (N : Nat) :
    ∀ anc : ASTNode, sizeOf anc ≤ N → ∀ desc p : ASTNode,
      RevB.getParentFromAncestor anc desc = .ok (some p) →
      ∃ l, p.children = some l ∧ ∃ e ∈ l, RevB.areEqual e desc = .ok true := by
  induction N with
  | zero =>
    intro anc hle
    exfalso
    cases anc with
    | mk k r c d => simp only [ASTNode.mk.sizeOf_spec] at hle; omega
  | succ N ihN =>
    intro anc hle desc p h
    rw [RevB.getParentFromAncestor.eq_def] at h
    cases hc : anc.children with
    | none => rw [hc] at h; simp at h
    | some l0 =>
      rw [hc] at h
      refine RevB.searchChildren_post anc desc p l0 hc ?_ l0 (fun c hcm => hcm) h
      intro c hcm p' hg
      have hs : sizeOf c < sizeOf anc := sizeOf_lt_of_mem_children hc hcm
      exact ihN c (by omega) desc p' hg

/-- Totality of revision B `areEqual` on well-formed nodes, by strong
induction on the combined size. -/
theorem RevB.areEqual_total (N : Nat) :
    ∀ a b : ASTNode, sizeOf a + sizeOf b ≤ N →
      wfNode a = true → wfNode b = true →
      ∃ r : Bool, RevB.areEqual a b = .ok r := by
  induction N with
  | zero =>
    intro a b hle
    exfalso
    cases a with
    | mk k r c d => simp only [ASTNode.mk.sizeOf_spec] at hle; omega
  | succ N ihN =>
    intro a b hle ha hb
    rw [RevB.areEqual_eq]
    by_cases hbase : RevB.baseEq a b = true
    · exact ⟨true, by rw [if_pos hbase]⟩
    · rw [if_neg hbase]
      have hu1 : ∃ r : Bool, RevB.unwrapStep a b = .ok r := by
        unfold RevB.unwrapStep
        by_cases hk : a.kind = "ImplicitCast"
        · obtain ⟨x, hx⟩ := wfNode_icHead ha hk
          have hwx : wfNode x = true := wfNode_icHead_wf ha hx
          have hs : sizeOf x < sizeOf a := sizeOf_icHead hx
          obtain ⟨r, hr⟩ := ihN x b (by omega) hwx hb
          refine ⟨r, ?_⟩
          rw [if_pos hk]
          split
          · rename_i heq; rw [heq] at hx; exact Option.noConfusion hx
          · rename_i x' heq
            rw [heq] at hx
            cases hx
            exact hr
        · exact ⟨false, by simp [hk]⟩
      have hu2 : ∃ r : Bool, RevB.unwrapStep b a = .ok r := by
        unfold RevB.unwrapStep
        by_cases hk : b.kind = "ImplicitCast"
        · obtain ⟨y, hy⟩ := wfNode_icHead hb hk
          have hwy : wfNode y = true := wfNode_icHead_wf hb hy
          have hs : sizeOf y < sizeOf b := sizeOf_icHead hy
          obtain ⟨r, hr⟩ := ihN y a (by omega) hwy ha
          refine ⟨r, ?_⟩
          rw [if_pos hk]
          split
          · rename_i heq; rw [heq] at hy; exact Option.noConfusion hy
          · rename_i y' heq
            rw [heq] at hy
            cases hy
            exact hr
        · exact ⟨false, by simp [hk]⟩
      obtain ⟨r1, h1⟩ := hu1
      obtain ⟨r2, h2⟩ := hu2
      rw [h1]
      cases r1 with
      | true => exact ⟨true, rfl⟩
      | false => exact ⟨r2, h2⟩

/-! ## Document, scan positions and the language-service environment -/

/-- JavaScript `text.charAt(i)`: the character at index `i`, or nothing for
an out-of-range index (JavaScript returns the empty string there, which
fails every comparison against a concrete one-character string). -/
def charAt (s : String) (i : Nat) : Option Char :=
  s.data.get? i

/-- vscode `TextLine.isEmptyOrWhitespace`. -/
def isEmptyOrWhitespace (s : String) : Bool :=
  s.data.all fun c => c == ' ' || c == '\t'

/-- vscode `TextLine.firstNonWhitespaceCharacterIndex`: index of the first
non-whitespace character, or the line length when the line is all
whitespace. -/
def firstNonWsIndex : List Char → Nat
  | [] => 0
  | c :: t => if c == ' ' || c == '\t' then firstNonWsIndex t + 1 else 0

/-- The line-level skip test shared by the scan loop (lines 437-441) and the
cursor pre-filter (lines 268-271): blank line, `//` comment line or `#`
preprocessor line.  The second character reads as absent at line end, as in
the source's ternary. -/
def lineIsSkippable (s : String) : Bool :=
  let i := firstNonWsIndex s.data
  let first := charAt s i
  let second := if i ≠ s.length then charAt s (i + 1) else none
  isEmptyOrWhitespace s || (first == some '/' && second == some '/') ||
    first == some '#'

/-- The character-level skip set of the scan loop (lines 460-466) and the
cursor pre-filter (lines 272-277): space, statement terminator, line break
or tab.  (The source also compares against the two-character string
`'\r\n'`, which a one-character `charAt` result can never equal.) -/
def isSkipChar (o : Option Char) : Bool :=
  o == some ' ' || o == some ';' || o == some '\n' || o == some '\t'

/-- A document as the resolver sees it: line texts and the monotonically
increasing edit-version counter. -/
structure Document where
  lines : List String
  version : Nat

/-- `document.lineAt(l).text`; out-of-range lines read as empty. -/
def Document.lineText (doc : Document) (l : Nat) : String :=
  doc.lines.getD l ""

/-- The length of line `l`. -/
def Document.lineLength (doc : Document) (l : Nat) : Nat :=
  (doc.lineText l).length

/-- Modelled from the spec: `Position.getLeftThroughLineBreaks` of the host
Vim fork (repository code outside `src/`) — "move one character left
crossing line boundaries" (section 6), landing at the previous line's end
when crossing, and "scanning never wraps past the start of the document"
(section 4.2): at (0,0) the position stays put. -/
def getLeftThroughLineBreaks (doc : Document) (p : Pos) : Pos :=
  if p.character = 0 then
    if p.line = 0 then p
    else ⟨p.line - 1, doc.lineLength (p.line - 1)⟩
  else ⟨p.line, p.character - 1⟩

/-- Modelled from the spec: `Position.getUp().getLineEnd()` of the host Vim
fork — "move to the end of the previous line" (section 4.2); `getUp` clamps
at line 0. -/
def prevLineEnd (doc : Document) (p : Pos) : Pos :=
  ⟨p.line - 1, doc.lineLength (p.line - 1)⟩

/-- JavaScript `lineText.split(' ')`. -/
def splitOnSpace (s : String) : List String :=
  s.splitOn " "

/-- Whether `l` starts with the pattern `pat`. -/
def listStartsWith : List Char → List Char → Bool
  | _, [] => true
  | [], _ :: _ => false
  | c :: t, p :: pt => c == p && listStartsWith t pt

/-- Index of the first occurrence of `pat` in `l`, counting from `i`. -/
def indexOfAux (pat : List Char) : List Char → Nat → Option Nat
  | [], i => if listStartsWith [] pat then some i else none
  | l@(_ :: t), i =>
    if listStartsWith l pat then some i else indexOfAux pat t (i + 1)

/-- JavaScript `s.indexOf(pat)` (as an `Option` instead of `-1`). -/
def strIndexOf (s pat : String) : Option Nat :=
  indexOfAux pat.data s.data 0

/-- The second whitespace-delimited token of a line, when present and
nonempty: JavaScript `lineText.split(' ').at(1)` under the source's
falsiness guard (`undefined` and `''` both fail it). -/
def protoName (lineText : String) : Option String :=
  match (splitOnSpace lineText).get? 1 with
  | some name => if name = "" then none else some name
  | none => none

/-- A logged request: a one-character point query or the whole-document
(`range: null`) query. -/
inductive QueryReq where
  | whole
  | point (line character : Nat)
deriving DecidableEq, Repr

/-- The language-service oracle and document for one resolution session:
`query l c` answers the one-character point query at (l, c), `root` the
null-range whole-document query.  The tree is fixed for the session. -/
structure Env where
  doc : Document
  query : Nat → Nat → Option ASTNode
  root : Option ASTNode

/-- The per-session mutable `VimState` fields the resolver touches. -/
structure VimState where
  currentAstNode : Option ASTNode
  currentParent : Option ASTNode
deriving Repr

/-- The scan-loop locals of revision B `getParentAstNode`: `currentPosition`
plus the separately assigned `currentLine` / `currentCharacter` copies.  The
source lets the copies go stale relative to `currentPosition` (only some
branches resynchronise them), which the embedding reproduces. -/
structure Config where
  pos : Pos
  currentLine : Nat
  currentCharacter : Nat
deriving DecidableEq, Repr

inductive SkipLinesOut where
  | rootFallback
  | proceed (cfg : Config)
deriving DecidableEq, Repr

/-- The skip-whole-lines loop (lines 427-456): while the line under
`currentLine` is blank, a `//` comment or a `#` directive, move to the end
of the previous line; landing on line 0 triggers the whole-document-root
fallback (checked after the move, as in the source).  Terminates
structurally: each step decreases `pos.line` or exits. -/
def skipLines (doc : Document) (cfg : Config) : SkipLinesOut :=
  if lineIsSkippable (doc.lineText cfg.currentLine) then
    if (prevLineEnd doc cfg.pos).line = 0 then .rootFallback
    else
      skipLines doc ⟨prevLineEnd doc cfg.pos, (prevLineEnd doc cfg.pos).line,
        (prevLineEnd doc cfg.pos).character⟩
  else .proceed cfg
termination_by cfg.pos.line
decreasing_by
  simp only [prevLineEnd] at *
  omega

/-- The end-of-line adjustment loop (lines 468-470): while the position sits
at its line's length (just past the last character), keep moving left.  The
loop can diverge at an empty line 0, hence the fuel. -/
def eolAdjust (doc : Document) : Nat → Pos → Option Pos
  | 0, _ => none
  | fuel + 1, p =>
    if p.character = doc.lineLength p.line then
      eolAdjust doc fuel (getLeftThroughLineBreaks doc p)
    else some p

/-- The skip-character loop (lines 459-474): while the character under
(`currentLine`, `currentCharacter`) is in the skip set, move left through
line breaks, apply the end-of-line adjustment and resynchronise the copies. -/
def skipChars (doc : Document) : Nat → Config → Option Config
  | 0, _ => none
  | fuel + 1, cfg =>
    if isSkipChar (charAt (doc.lineText cfg.currentLine) cfg.currentCharacter) then
      match eolAdjust doc fuel (getLeftThroughLineBreaks doc cfg.pos) with
      | none => none
      | some p2 => skipChars doc fuel ⟨p2, p2.line, p2.character⟩
    else some cfg

/-- `areEqual(child, n)` over a list in order, first hit wins, thrown
comparisons propagate: the pattern of the cache check (lines 372-378) and
of the is-actually-a-child check (lines 492-500). -/
def anyChildEqual : List ASTNode → ASTNode → Except Unit Bool
  | [], _ => .ok false
  | c :: t, n =>
    match RevB.areEqual c n with
    | .error e => .error e
    | .ok true => .ok true
    | .ok false => anyChildEqual t n

inductive IterOut where
  | rootFallback
  | found (cp : ASTNode) (log : List QueryReq)
  | next (cfg : Config) (log : List QueryReq)
  | thrown
  | stuck
deriving Repr

/-- One iteration of revision B's parent-search `while` loop
(lines 423-534), excluding the `getParentIfImplicitCast` post-processing of
a hit (which recurses into `getParentAstNode` and lives in `engine`):

* skip whole lines, with the root fallback at line 0;
* skip characters (`fuel` bounds the possibly-diverging inner loops);
* issue the one-character point query at the possibly stale
  (`currentLine`, `currentCharacter`);
* a null answer falls through the candidate block and continues one further
  character left (line 519);
* an answer that is a direct child of `node` (the namespace-qualifier case)
  is discarded and the scan rewound as on a miss;
* otherwise run the DFS; a hit reports the candidate parent; a miss rewinds
  to one left of the candidate's range start (or of the current position if
  the candidate has no range), then one further left (line 519), then
  applies the function-prototype anchor special case (lines 520-531); the
  `indexOf` fallback to the previous position is unreachable because the
  split token always occurs in its line. -/
def orchIter (env : Env) (node : ASTNode) (fuel : Nat) (cfg : Config) : IterOut :=
  match skipLines env.doc cfg with
  | .rootFallback => .rootFallback
  | .proceed cfg1 =>
    match skipChars env.doc fuel cfg1 with
    | none => .stuck
    | some cfg2 =>
      match env.query cfg2.currentLine cfg2.currentCharacter with
      | none =>
        let p := getLeftThroughLineBreaks env.doc cfg2.pos
        .next ⟨p, p.line, p.character⟩
          [QueryReq.point cfg2.currentLine cfg2.currentCharacter]
      | some cand =>
        match (match node.children with
               | none => Except.ok false
               | some l => anyChildEqual l cand) with
        | .error _ => .thrown
        | .ok isChild =>
          match (if isChild then Except.ok none
                 else RevB.getParentFromAncestor cand node) with
          | .error _ => .thrown
          | .ok (some cp) =>
            .found cp [QueryReq.point cfg2.currentLine cfg2.currentCharacter]
          | .ok none =>
            let p3 := match cand.range with
              | some r => getLeftThroughLineBreaks env.doc r.start
              | none => getLeftThroughLineBreaks env.doc cfg2.pos
            let p4 := getLeftThroughLineBreaks env.doc p3
            let p5 :=
              if cand.kind == "FunctionProto"
                  && cand.range.map (fun r => r.start.character) == some 0 then
                match cand.range with
                | some r =>
                  let lineText := env.doc.lineText r.start.line
                  match protoName lineText with
                  | some fname =>
                    match strIndexOf lineText fname with
                    | some i => (⟨r.start.line, i⟩ : Pos)
                    | none => p4
                  | none => p4
                | none => p4
              else p4
            .next ⟨p5, p5.line, p5.character⟩
              [QueryReq.point cfg2.currentLine cfg2.currentCharacter]

/-- Call descriptors for the fused engine: `.resolve` is a call of
`getParentAstNode`, `.loop` an entry into its parent-search `while` loop. -/
inductive EngineCall where
  | resolve (node : Option ASTNode) (st : VimState)
  | loop (node : ASTNode) (st : VimState) (cfg : Config)

/-- A resolver outcome: the returned parent with the final mutable state and
the log of issued service requests, a thrown exception, or fuel exhaustion
(the source's loops can genuinely diverge). -/
inductive OrchRes where
  | ok (parent : Option ASTNode) (st : VimState) (log : List QueryReq)
  | thrown
  | outOfFuel
deriving Repr

/-- Revision B `getParentAstNode` (lines 364-538) and its parent-search
loop, fused into one fuel-indexed function (each layer consumes one unit of
fuel; the async suspension points need no further modelling because a
resolution's queries are strictly sequential).

`.resolve node st`:
* a null node resolves to null (line 368);
* cache check (lines 372-378): a cached parent one of whose children
  `areEqual`s the node is returned with no query;
* `Function` shortcut (lines 385-391): the whole-document root is fetched,
  cached and returned;
* a missing range on the node throws (`nodeRange!.start`, line 397);
* the column-0 function-prototype probe (lines 402-419): a query at the
  second space-delimited token; a `Function` answer is cached and returned,
  anything else falls through to the scan;
* the scan starts one left of the node's range start with the stale
  line/character copies (lines 397-399 and 421), entering `.loop`.

`.loop node st cfg`: one `orchIter`; a root fallback caches and returns the
whole-document root; a found candidate parent goes through
`getParentIfImplicitCast` (lines 357-362): non-`ImplicitCast` parents are
cached and returned, an `ImplicitCast` parent is resolved again through
`.resolve` and the result of that resolution is cached and returned. -/
def engine (env : Env) : Nat → EngineCall → OrchRes
  | 0, _ => .outOfFuel
  | fuel + 1, .loop node st cfg =>
    match orchIter env node fuel cfg with
    | .rootFallback =>
      .ok env.root { st with currentParent := env.root } [QueryReq.whole]
    | .thrown => .thrown
    | .stuck => .outOfFuel
    | .found cp log =>
      if cp.kind ≠ "ImplicitCast" then
        .ok (some cp) { st with currentParent := some cp } log
      else
        match engine env fuel (.resolve (some cp) st) with
        | .ok r st2 log2 => .ok r { st2 with currentParent := r } (log ++ log2)
        | e => e
    | .next cfg2 log =>
      match engine env fuel (.loop node st cfg2) with
      | .ok r st2 log2 => .ok r st2 (log ++ log2)
      | e => e
  | fuel + 1, .resolve node st =>
    match node with
    | none => .ok none st []
    | some n =>
      match (match st.currentParent with
             | some p =>
               match p.children with
               | some l => anyChildEqual l n
               | none => Except.ok false
             | none => Except.ok false) with
      | .error _ => .thrown
      | .ok true => .ok st.currentParent st []
      | .ok false =>
        if n.kind == "Function" then
          .ok env.root { st with currentParent := env.root } [QueryReq.whole]
        else
          match n.range with
          | none => .thrown
          | some r =>
            let sl := r.start.line
            let sc := r.start.character
            let scan : List QueryReq → OrchRes := fun preLog =>
              match engine env fuel
                  (.loop n st ⟨getLeftThroughLineBreaks env.doc ⟨sl, sc⟩, sl, sc⟩) with
              | .ok rr st2 log2 => .ok rr st2 (preLog ++ log2)
              | e => e
            if sc == 0 then
              match protoName (env.doc.lineText sl) with
              | some name =>
                let tc := (strIndexOf (env.doc.lineText sl) name).getD 0
                match env.query sl tc with
                | some tn =>
                  if tn.kind == "Function" then
                    .ok (some tn) { st with currentParent := some tn }
                      [QueryReq.point sl tc]
                  else scan [QueryReq.point sl tc]
                | none => scan [QueryReq.point sl tc]
              | none => scan []
            else scan []

/-- Revision B `getParentAstNode` (lines 364-538), fuel-indexed. -/
def getParentAstNode (env : Env) (fuel : Nat) (node : Option ASTNode)
    (st : VimState) : OrchRes :=
  engine env fuel (.resolve node st)

/-- An entry into the parent-search `while` loop of `getParentAstNode`,
fuel-indexed. -/
def orchLoop (env : Env) (fuel : Nat) (node : ASTNode) (st : VimState)
    (cfg : Config) : OrchRes :=
  engine env fuel (.loop node st cfg)

/-- The module-level `lastVersion` (line 245) together with the `VimState`
fields `highlightAstNodeUnderCursor` touches. -/
structure HLState where
  lastVersion : Int
  vim : VimState
deriving Repr

/-- Caller-visible outcome of one `highlightAstNodeUnderCursor` call. -/
inductive HLOut where
  | skippedPrefilter
  | noNodeMessage
  | highlighted (r : Range)
  | noHighlight
  | thrown
  | outOfFuel
deriving DecidableEq, Repr

structure HLRes where
  out : HLOut
  st : HLState
  log : List QueryReq
deriving Repr

/-- `highlightAstNode` (lines 228-243): no cached node means no decoration;
a cached node is decorated over `item.range!`, which throws when the range
is absent. -/
def highlightAstNode (st : HLState) : HLOut :=
  match st.vim.currentAstNode with
  | none => .noHighlight
  | some item =>
    match item.range with
    | none => .thrown
    | some r => .highlighted r

/-- The body of `highlightAstNodeUnderCursor` after its version check
(lines 254-307), on the state `st1` left by that check: with an incomplete
cache, pre-filter the cursor line, issue the initial one-character leaf
query — a null or range-less answer surfaces the "No AST node at selection"
message — then resolve and cache the parent via `getParentAstNode`; finally
decorate from the cached leaf. -/
def highlightCore (env : Env) (fuel : Nat) (cursor : Pos)
    (st1 : HLState) : HLRes :=
  match st1.vim.currentAstNode, st1.vim.currentParent with
  | some _, some _ => ⟨highlightAstNode st1, st1, []⟩
  | _, _ =>
    let line := env.doc.lineText cursor.line
    if lineIsSkippable line || isSkipChar (charAt line cursor.character) then
      ⟨.skippedPrefilter, st1, []⟩
    else
      match env.query cursor.line cursor.character with
      | none =>
        ⟨.noNodeMessage, st1, [QueryReq.point cursor.line cursor.character]⟩
      | some item =>
        match item.range with
        | none =>
          ⟨.noNodeMessage, st1, [QueryReq.point cursor.line cursor.character]⟩
        | some _ =>
          let st2 : HLState := ⟨st1.lastVersion, ⟨some item, st1.vim.currentParent⟩⟩
          match getParentAstNode env fuel (some item) st2.vim with
          | .ok r vim2 log =>
            let st3 : HLState := ⟨st2.lastVersion, ⟨vim2.currentAstNode, r⟩⟩
            ⟨highlightAstNode st3, st3,
              QueryReq.point cursor.line cursor.character :: log⟩
          | .thrown => ⟨.thrown, st2, [QueryReq.point cursor.line cursor.character]⟩
          | .outOfFuel =>
            ⟨.outOfFuel, st2, [QueryReq.point cursor.line cursor.character]⟩

/-- `highlightAstNodeUnderCursor` (lines 247-308): the version check of
lines 248-252 — a stale `lastVersion` clears both cached nodes and stores
the live version — followed by `highlightCore`. -/
def highlightAstNodeUnderCursor (env : Env) (fuel : Nat) (cursor : Pos)
    (st0 : HLState) : HLRes :=
  highlightCore env fuel cursor
    (if st0.lastVersion ≠ (env.doc.version : Int) then
      (⟨(env.doc.version : Int), ⟨none, none⟩⟩ : HLState) else st0)

/-! ## Claim theorems for the node-equality and ancestor-search components -/

def w2x : ASTNode := .mk "DeclRef" (some ⟨⟨1, 2⟩, ⟨1, 5⟩⟩) none none

def w2c : ASTNode := .mk "ImplicitCast" (some ⟨⟨1, 2⟩, ⟨1, 5⟩⟩) (some [w2x]) none

/-- C2: Equality symmetry — for all syntax nodes `a` and `b`, whenever
`areEqual(a, b)` and `areEqual(b, a)` both return a boolean (rather than
throwing on a malformed `ImplicitCast` node), they return the same boolean. -/
theorem C2_areEqual_symmetric (a b : ASTNode) (x y : Bool)
    (hab : RevB.areEqual a b = .ok x) (hba : RevB.areEqual b a = .ok y) :
    x = y := by
  rw [RevB.areEqual_eq] at hab hba
  rw [RevB.baseEq_symm b a] at hba
  by_cases hbase : RevB.baseEq a b = true
  · rw [if_pos hbase] at hab hba
    cases hab; cases hba; rfl
  · rw [if_neg hbase] at hab hba
    cases h1 : RevB.unwrapStep a b <;> rw [h1] at hab hba <;>
      cases h2 : RevB.unwrapStep b a <;> rw [h2] at hab hba
    · simp at hab
    · simp at hab
    · simp at hba
    · rename_i v1 v2
      cases v1 <;> cases v2 <;> simp_all

/-- Witness for C2: both orders of comparing an `ImplicitCast` wrapper with
its child evaluate to `ok true`, and the theorem equates them. -/
theorem C2_witness :
    RevB.areEqual w2c w2x = .ok true ∧ RevB.areEqual w2x w2c = .ok true ∧
      (true : Bool) = true := by
  have h1 : RevB.areEqual w2c w2x = .ok true := by
    simp [RevB.areEqual, RevB.baseEq, w2c, w2x, icHead,
      ASTNode.kind, ASTNode.children, ASTNode.range]
  have h2 : RevB.areEqual w2x w2c = .ok true := by
    simp [RevB.areEqual, RevB.baseEq, w2c, w2x, icHead,
      ASTNode.kind, ASTNode.children, ASTNode.range]
  exact ⟨h1, h2, C2_areEqual_symmetric w2c w2x true true h1 h2⟩

def c3x : ASTNode := .mk "DeclRef" (some ⟨⟨0, 0⟩, ⟨0, 3⟩⟩) none none

def c3z : ASTNode := .mk "DeclRef" (some ⟨⟨5, 0⟩, ⟨5, 3⟩⟩) none none

def c3c : ASTNode := .mk "ImplicitCast" (some ⟨⟨0, 0⟩, ⟨0, 3⟩⟩) (some [c3x]) none

def c3y : ASTNode := .mk "ImplicitCast" (some ⟨⟨0, 0⟩, ⟨0, 3⟩⟩) (some [c3z]) none

/-- C3 counterexample: `c3c` is an implicit-conversion node with sole child
`c3x`, yet `areEqual(c3c, c3y) = true` (both are `ImplicitCast` nodes with
the same range, so the base comparison succeeds) while
`areEqual(c3x, c3y) = false`:  the two calls do not return the same boolean,
refuting the claimed equivalence. -/
theorem C3_counterexample :
    c3c.kind = "ImplicitCast" ∧ c3c.children = some [c3x] ∧
    RevB.areEqual c3c c3y = .ok true ∧ RevB.areEqual c3x c3y = .ok false := by
  refine ⟨rfl, rfl, ?_, ?_⟩ <;>
    simp [RevB.areEqual, RevB.baseEq, icHead, c3c, c3x, c3y, c3z,
      ASTNode.kind, ASTNode.children, ASTNode.range]

/-- C3 amended: conversion transparency holds in one direction only — for an
implicit-conversion node `c` with sole child `x` and any node `y`, if
`areEqual(x, y)` returns true then `areEqual(c, y)` returns true (the
comparison is delegated to the sole child, recursively via the recursion in
`areEqual`); the converse direction fails (see the counterexample). -/
theorem C3_conversion_transparency_amended (c x y : ASTNode)
    (hk : c.kind = "ImplicitCast") (hc : c.children = some [x])
    (hxy : RevB.areEqual x y = .ok true) :
    RevB.areEqual c y = .ok true := by
  rw [RevB.areEqual_eq]
  by_cases hbase : RevB.baseEq c y = true
  · rw [if_pos hbase]
  · rw [if_neg hbase]
    have hic : icHead c = some x := by simp [icHead, hc]
    have hu : RevB.unwrapStep c y = .ok true := by
      unfold RevB.unwrapStep
      rw [if_pos hk]
      split
      · rename_i heq; rw [heq] at hic; exact Option.noConfusion hic
      · rename_i x2 heq; rw [heq] at hic; cases hic; exact hxy
    rw [hu]

/-- Witness for the amended C3: a conversion node compared against its own
child yields `ok true` because the child-side comparison does. -/
theorem C3_amended_witness :
    c3c.kind = "ImplicitCast" ∧ c3c.children = some [c3x] ∧
      RevB.areEqual c3x c3x = .ok true ∧ RevB.areEqual c3c c3x = .ok true := by
  have h : RevB.areEqual c3x c3x = .ok true := by
    simp [RevB.areEqual, RevB.baseEq, c3x, ASTNode.kind, ASTNode.range]
  exact ⟨rfl, rfl, h, C3_conversion_transparency_amended c3c c3x c3x rfl rfl h⟩

/-- C4: Ancestor Search postcondition — whenever revision B
`getParentFromAncestor` returns a parent, that parent's children list
contains a node `areEqual` to the descendant.  Determinism over a fixed tree
is definitional here: the embedded search is a pure function of the ancestor
and descendant, mirroring the source function, which reads no mutable state
(its `vimState` parameter is unused). -/
theorem C4_ancestor_search_postcondition (anc desc p : ASTNode)
    (h : RevB.getParentFromAncestor anc desc = .ok (some p)) :
    ∃ l, p.children = some l ∧ ∃ e ∈ l, RevB.areEqual e desc = .ok true :=
  RevB.getParentFromAncestor_post (sizeOf anc) anc le_rfl desc p h

def w4d : ASTNode := .mk "BinaryOperator" (some ⟨⟨2, 4⟩, ⟨2, 12⟩⟩) none none

def w4a : ASTNode := .mk "Compound" (some ⟨⟨1, 0⟩, ⟨3, 1⟩⟩) (some [w4d]) none

/-- Witness for C4: searching for a statement inside the block that owns it
returns the block, whose children indeed contain a node equal to it. -/
theorem C4_witness :
    RevB.getParentFromAncestor w4a w4d = .ok (some w4a) ∧
      ∃ l, w4a.children = some l ∧ ∃ e ∈ l, RevB.areEqual e w4d = .ok true := by
  have h : RevB.getParentFromAncestor w4a w4d = .ok (some w4a) := by
    simp [RevB.getParentFromAncestor, RevB.searchChildren, RevB.areEqual,
      RevB.baseEq, w4a, w4d, ASTNode.children, ASTNode.kind, ASTNode.range]
  exact ⟨h, C4_ancestor_search_postcondition w4a w4d w4a h⟩

def c10bad : ASTNode := .mk "ImplicitCast" (some ⟨⟨0, 0⟩, ⟨0, 1⟩⟩) none none

def c10other : ASTNode := .mk "DeclRef" (some ⟨⟨2, 0⟩, ⟨2, 1⟩⟩) none none

def w10x : ASTNode := .mk "DeclRef" (some ⟨⟨1, 2⟩, ⟨1, 5⟩⟩) none none

def w10c : ASTNode := .mk "ImplicitCast" (some ⟨⟨1, 2⟩, ⟨1, 5⟩⟩) (some [w10x]) none

/-- C10: `areEqual` is total only when implicit-conversion nodes carry a
child.  First conjunct: with an `ImplicitCast` node whose children list is
absent, the unguarded `children![0]` access throws (the error branch is
reachable).  Second conjunct: under the precondition that every
`ImplicitCast` node in both trees has at least one child, `areEqual` always
returns a boolean. -/
theorem C10_areEqual_totality :
    (RevB.areEqual c10bad c10other = .error ()) ∧
    (∀ a b : ASTNode, wfNode a = true → wfNode b = true →
      ∃ r : Bool, RevB.areEqual a b = .ok r) := by
  constructor
  · simp [RevB.areEqual, RevB.baseEq, icHead, c10bad, c10other,
      ASTNode.kind, ASTNode.children, ASTNode.range]
  · intro a b ha hb
    exact RevB.areEqual_total (sizeOf a + sizeOf b) a b le_rfl ha hb

/-- Witness for C10's totality branch on concrete well-formed nodes. -/
theorem C10_witness :
    wfNode w10c = true ∧ wfNode w10x = true ∧
      ∃ r : Bool, RevB.areEqual w10c w10x = .ok r := by
  have h1 : wfNode w10c = true := by
    simp [wfNode, wfList, w10c, w10x, icHead, ASTNode.kind, ASTNode.children]
  have h2 : wfNode w10x = true := by
    simp [wfNode, wfList, w10x, icHead, ASTNode.kind, ASTNode.children]
  exact ⟨h1, h2, C10_areEqual_totality.2 w10c w10x h1 h2⟩

def w1stmt : ASTNode := .mk "BinaryOperator" (some ⟨⟨2, 4⟩, ⟨2, 12⟩⟩) none none

def w1comp : ASTNode := .mk "Compound" (some ⟨⟨1, 0⟩, ⟨3, 1⟩⟩) (some [w1stmt]) none

def w1for : ASTNode := .mk "For" (some ⟨⟨0, 0⟩, ⟨3, 1⟩⟩) (some [w1comp]) none

def w1orch : ASTNode → Option ASTNode := fun _ => some w1for

/-- C1: Compound-collapse law (revision A `getParentFromAncestor`, the
revision that implements the policy; the orchestrator call
`getParentAstNode(potentialAncestor)` is the oracle `orch`).  When the
scan of a `Compound` ancestor's children reaches a child equal to the
descendant — after a prefix of children that neither match nor contain the
descendant — the ancestor's own parent `gp` (resolved through the
orchestrator) is returned if it is not a compound block, and the compound
block itself is returned if `gp` is again a compound block. -/
theorem C1_compound_collapse (orch : ASTNode → Option ASTNode)
    (anc desc gp child : ASTNode) (l1 l2 : List ASTNode)
    (hk : anc.kind = "Compound")
    (hc : anc.children = some (l1 ++ child :: l2))
    (hm : RevA.areEqual child desc = true)
    (hl : ∀ c ∈ l1, RevA.areEqual c desc = false ∧
        RevA.getParentFromAncestor orch c desc = .ok none)
    (ho : orch anc = some gp) :
    RevA.getParentFromAncestor orch anc desc =
      .ok (some (if gp.kind = "Compound" then anc else gp)) := by
  rw [RevA.getParentFromAncestor.eq_def]
  split
  · rename_i heq; rw [heq] at hc; exact Option.noConfusion hc
  · rename_i l heq
    rw [heq] at hc
    have hll := Option.some.inj hc
    subst hll
    rw [RevA.searchChildren_drop orch anc desc l1 (child :: l2) hl]
    simp only [RevA.searchChildren, hm, hk, ho, if_true]
    by_cases hgp : gp.kind = "Compound" <;> simp [hgp]

/-- Witness for C1: the single statement of a for-loop body reports the
`For` node, not the brace block, as its parent. -/
theorem C1_witness :
    RevA.getParentFromAncestor w1orch w1comp w1stmt = .ok (some w1for) := by
  have h := C1_compound_collapse w1orch w1comp w1stmt w1for w1stmt [] []
    rfl rfl (by simp [RevA.areEqual, w1stmt, ASTNode.range])
    (by intro c hc; cases hc) rfl
  simpa [w1for, ASTNode.kind] using h

/-! ## Claim theorems for the orchestrator and caller -/

theorem anyChildEqual_ok_true {l : List ASTNode} {n : ASTNode}
    (hhit : ∃ c ∈ l, RevB.areEqual c n = .ok true)
    (hok : ∀ c ∈ l, RevB.areEqual c n ≠ .error ()) :
    anyChildEqual l n = .ok true := by
  induction l with
  | nil => rcases hhit with ⟨c, hc, _⟩; cases hc
  | cons a t ih =>
    cases ha : RevB.areEqual a n with
    | error e =>
      cases e
      exact absurd ha (hok a (List.mem_cons_self a t))
    | ok b =>
      cases b with
      | true => simp [anyChildEqual, ha]
      | false =>
        simp only [anyChildEqual, ha]
        apply ih
        · rcases hhit with ⟨c, hc, hceq⟩
          rcases List.mem_cons.mp hc with rfl | hct
          · rw [ha] at hceq; simp at hceq
          · exact ⟨c, hct, hceq⟩
        · exact fun c hc => hok c (List.mem_cons_of_mem _ hc)

/-- C5: Cache coherence — with a cached parent `P` whose children list
contains a node `areEqual` to the input `C` (and no comparison throwing),
`getParentAstNode` returns `P` immediately: the state is untouched and the
request log is empty, so no point query (nor the whole-document query) is
issued. -/
theorem C5_cache_coherence (env : Env) (fuel : Nat) (st : VimState)
    (P C : ASTNode) (l : List ASTNode)
    (hp : st.currentParent = some P) (hcl : P.children = some l)
    (hhit : ∃ c ∈ l, RevB.areEqual c C = .ok true)
    (hok : ∀ c ∈ l, RevB.areEqual c C ≠ .error ()) :
    getParentAstNode env (fuel + 1) (some C) st = .ok (some P) st [] := by
  have hc : anyChildEqual l C = .ok true := anyChildEqual_ok_true hhit hok
  simp only [getParentAstNode, engine, hp, hcl, hc]

def w5c : ASTNode := .mk "DeclRef" (some ⟨⟨2, 1⟩, ⟨2, 4⟩⟩) none none

def w5p : ASTNode := .mk "Compound" (some ⟨⟨1, 0⟩, ⟨3, 1⟩⟩) (some [w5c]) none

def w5env : Env :=
  ⟨⟨["int a;"], 7⟩, fun _ _ => none, some (.mk "TranslationUnitDecl" none none none)⟩

def w5st : VimState := ⟨some w5c, some w5p⟩

/-- Witness for C5: a concrete cached parent is returned with an empty
request log. -/
theorem C5_witness :
    getParentAstNode w5env 1 (some w5c) w5st = .ok (some w5p) w5st [] := by
  apply C5_cache_coherence w5env 0 w5st w5p w5c [w5c] rfl rfl
  · refine ⟨w5c, List.mem_singleton_self w5c, ?_⟩
    simp [RevB.areEqual, RevB.baseEq, w5c, ASTNode.kind, ASTNode.range]
  · intro c hc
    rw [List.mem_singleton.mp hc]
    simp [RevB.areEqual, RevB.baseEq, w5c, ASTNode.kind, ASTNode.range]

/-- C6: Version invalidation — when the stored `lastVersion` differs from
the document's live version, `highlightAstNodeUnderCursor` behaves exactly
as if both cached nodes had been cleared first (and the stored version
updated): the whole call is equal to the call on the cleared state, so a
(leaf, parent) pair cached under a prior version is never consulted and a
fresh resolution must occur. -/
theorem C6_version_invalidation (env : Env) (fuel : Nat) (cursor : Pos)
    (st : HLState) (h : st.lastVersion ≠ (env.doc.version : Int)) :
    highlightAstNodeUnderCursor env fuel cursor st =
      highlightAstNodeUnderCursor env fuel cursor
        ⟨(env.doc.version : Int), ⟨none, none⟩⟩ := by
  unfold highlightAstNodeUnderCursor
  rw [if_pos h, if_neg (by simp)]

def w6env : Env :=
  ⟨⟨["int a;"], 3⟩, fun _ _ => none, some (.mk "TranslationUnitDecl" none none none)⟩

def w6leaf : ASTNode := .mk "DeclRef" (some ⟨⟨0, 4⟩, ⟨0, 5⟩⟩) none none

def w6parent : ASTNode := .mk "VarDecl" (some ⟨⟨0, 0⟩, ⟨0, 5⟩⟩) (some [w6leaf]) none

def w6stale : HLState := ⟨2, ⟨some w6leaf, some w6parent⟩⟩

/-- Witness for C6: a state cached under version 2 facing a version-3
document resolves exactly as the cleared state does. -/
theorem C6_witness :
    highlightAstNodeUnderCursor w6env 4 ⟨0, 4⟩ w6stale =
      highlightAstNodeUnderCursor w6env 4 ⟨0, 4⟩
        ⟨((w6env.doc).version : Int), ⟨none, none⟩⟩ :=
  C6_version_invalidation w6env 4 ⟨0, 4⟩ w6stale (by decide)

/-- "Is not an implicit-conversion node" for an optional parent. -/
def notIC : Option ASTNode → Bool
  | none => true
  | some n => n.kind != "ImplicitCast"

/-- The mutable state an engine call starts from. -/
def EngineCall.state : EngineCall → VimState
  | .resolve _ st => st
  | .loop _ st _ => st

/-- Invariant preservation: if the whole-document root is never an
`ImplicitCast` node and the cached parent is not one, then every parent the
engine returns, and the cached parent it leaves behind, is not one either. -/
theorem engine_notIC (env : Env) (hroot : notIC env.root = true) :
    ∀ (fuel : Nat) (c : EngineCall), notIC c.state.currentParent = true →
      ∀ p st2 log, engine env fuel c = .ok p st2 log →
        notIC p = true ∧ notIC st2.currentParent = true := by
  intro fuel
  induction fuel with
  | zero => intro c _ p st2 log h; simp [engine] at h
  | succ fuel ih =>
    intro c hst p st2 log h
    cases c with
    | loop node st cfg =>
      simp only [EngineCall.state] at hst
      simp only [engine] at h
      cases hit : orchIter env node fuel cfg with
      | rootFallback =>
        simp only [hit] at h
        injection h with h1 h2 h3
        subst h1; subst h2
        exact ⟨hroot, hroot⟩
      | thrown => simp only [hit] at h; cases h
      | stuck => simp only [hit] at h; cases h
      | found cp log1 =>
        simp only [hit] at h
        split at h
        · rename_i hk
          injection h with h1 h2 h3
          subst h1; subst h2
          constructor <;> simp [notIC, hk]
        · cases hrec : engine env fuel (.resolve (some cp) st) with
          | ok r st3 log3 =>
            simp only [hrec] at h
            injection h with h1 h2 h3
            subst h1; subst h2
            have hres := ih (.resolve (some cp) st) hst r st3 log3 hrec
            exact ⟨hres.1, hres.1⟩
          | thrown => simp only [hrec] at h; cases h
          | outOfFuel => simp only [hrec] at h; cases h
      | next cfg2 log1 =>
        simp only [hit] at h
        cases hrec : engine env fuel (.loop node st cfg2) with
        | ok r st3 log3 =>
          simp only [hrec] at h
          injection h with h1 h2 h3
          subst h1; subst h2
          exact ih (.loop node st cfg2) hst r st3 log3 hrec
        | thrown => simp only [hrec] at h; cases h
        | outOfFuel => simp only [hrec] at h; cases h
    | resolve node st =>
      simp only [EngineCall.state] at hst
      simp only [engine] at h
      cases node with
      | none =>
        injection h with h1 h2 h3
        subst h1; subst h2
        exact ⟨rfl, hst⟩
      | some n =>
        cases hcache : (match st.currentParent with
             | some p =>
               match p.children with
               | some l => anyChildEqual l n
               | none => Except.ok false
             | none => Except.ok false) with
        | error e => simp only [hcache] at h; cases h
        | ok hitb =>
          cases hitb with
          | true =>
            simp only [hcache] at h
            injection h with h1 h2 h3
            subst h1; subst h2
            exact ⟨hst, hst⟩
          | false =>
            simp only [hcache] at h
            split at h
            · injection h with h1 h2 h3
              subst h1; subst h2
              exact ⟨hroot, hroot⟩
            · split at h
              · cases h
              · rename_i r hr
                split at h
                · -- column-0 probe path
                  split at h
                  · rename_i name hname
                    split at h
                    · rename_i tn htn
                      split at h
                      · rename_i htnf
                        injection h with h1 h2 h3
                        subst h1; subst h2
                        have hkind : tn.kind = "Function" := beq_iff_eq.mp htnf
                        constructor <;> simp [notIC, hkind]
                      · cases hrec : engine env fuel
                            (.loop n st ⟨getLeftThroughLineBreaks env.doc
                              ⟨r.start.line, r.start.character⟩,
                              r.start.line, r.start.character⟩) with
                        | ok rr st3 log3 =>
                          simp only [hrec] at h
                          injection h with h1 h2 h3
                          subst h1; subst h2
                          exact ih (.loop n st ⟨getLeftThroughLineBreaks env.doc
                            ⟨r.start.line, r.start.character⟩,
                            r.start.line, r.start.character⟩) hst rr st3 log3 hrec
                        | thrown => simp only [hrec] at h; cases h
                        | outOfFuel => simp only [hrec] at h; cases h
                    · cases hrec : engine env fuel
                          (.loop n st ⟨getLeftThroughLineBreaks env.doc
                            ⟨r.start.line, r.start.character⟩,
                            r.start.line, r.start.character⟩) with
                      | ok rr st3 log3 =>
                        simp only [hrec] at h
                        injection h with h1 h2 h3
                        subst h1; subst h2
                        exact ih (.loop n st ⟨getLeftThroughLineBreaks env.doc
                          ⟨r.start.line, r.start.character⟩,
                          r.start.line, r.start.character⟩) hst rr st3 log3 hrec
                      | thrown => simp only [hrec] at h; cases h
                      | outOfFuel => simp only [hrec] at h; cases h
                  · cases hrec : engine env fuel
                        (.loop n st ⟨getLeftThroughLineBreaks env.doc
                          ⟨r.start.line, r.start.character⟩,
                          r.start.line, r.start.character⟩) with
                    | ok rr st3 log3 =>
                      simp only [hrec] at h
                      injection h with h1 h2 h3
                      subst h1; subst h2
                      exact ih (.loop n st ⟨getLeftThroughLineBreaks env.doc
                        ⟨r.start.line, r.start.character⟩,
                        r.start.line, r.start.character⟩) hst rr st3 log3 hrec
                    | thrown => simp only [hrec] at h; cases h
                    | outOfFuel => simp only [hrec] at h; cases h
                · cases hrec : engine env fuel
                      (.loop n st ⟨getLeftThroughLineBreaks env.doc
                        ⟨r.start.line, r.start.character⟩,
                        r.start.line, r.start.character⟩) with
                  | ok rr st3 log3 =>
                    simp only [hrec] at h
                    injection h with h1 h2 h3
                    subst h1; subst h2
                    exact ih (.loop n st ⟨getLeftThroughLineBreaks env.doc
                      ⟨r.start.line, r.start.character⟩,
                      r.start.line, r.start.character⟩) hst rr st3 log3 hrec
                  | thrown => simp only [hrec] at h; cases h
                  | outOfFuel => simp only [hrec] at h; cases h

/-- C7: implicit conversions are never the reported parent — for every
non-null input node, under the environment assumptions the code relies on
(the whole-document root answered by the service is not an `ImplicitCast`
node, and the cached parent is not one, the invariant the function itself
maintains), every parent `getParentAstNode` returns is not an
`ImplicitCast` node, and neither is the parent it caches: a resolved
`ImplicitCast` parent is resolved again through `getParentIfImplicitCast`. -/
theorem C7_no_implicit_cast_parent (env : Env) (fuel : Nat)
    (node : ASTNode) (st : VimState)
    (hroot : notIC env.root = true) (hst : notIC st.currentParent = true)
    (p : Option ASTNode) (st2 : VimState) (log : List QueryReq)
    (h : getParentAstNode env fuel (some node) st = .ok p st2 log) :
    notIC p = true ∧ notIC st2.currentParent = true :=
  engine_notIC env hroot fuel (.resolve (some node) st) hst p st2 log h

def w7n : ASTNode := .mk "DeclRef" (some ⟨⟨4, 2⟩, ⟨4, 7⟩⟩) none none

def w7p : ASTNode := .mk "Compound" (some ⟨⟨3, 0⟩, ⟨5, 1⟩⟩) (some [w7n]) none

def w7env : Env :=
  ⟨⟨["int f()", "\x7b", "\x7d"], 1⟩, fun _ _ => none,
    some (.mk "TranslationUnitDecl" none none none)⟩

def w7st : VimState := ⟨some w7n, some w7p⟩

/-- Witness for C7 on a concrete resolved parent. -/
theorem C7_witness :
    notIC (some w7p) = true ∧ notIC w7st.currentParent = true := by
  have h : getParentAstNode w7env 1 (some w7n) w7st = .ok (some w7p) w7st [] := by
    simp [getParentAstNode, engine, w7st, w7p, w7n, anyChildEqual,
      RevB.areEqual, RevB.baseEq, ASTNode.kind, ASTNode.children, ASTNode.range]
  exact C7_no_implicit_cast_parent w7env 1 w7n w7st (by decide) (by decide)
    (some w7p) w7st [] h

theorem highlightAstNode_ne_noNode (st : HLState) :
    highlightAstNode st ≠ .noNodeMessage := by
  unfold highlightAstNode
  split
  · simp
  · split <;> simp

/-- C8: NoNodeAtPosition recovery.  First conjunct: inside the parent-search
scan loop, a point query that returns nothing steps the scan one character
further left and continues — it is neither an error nor a result, so the
resolution recovers locally.  Second conjunct: whenever
`highlightAstNodeUnderCursor` surfaces the "No AST node at selection"
message, it is because the initial leaf query at the cursor returned
nothing (or a node without a range); no other step — in particular no query
of the scan loop — produces that outcome. -/
theorem C8_noNode_recovery :
    (∀ (env : Env) (node : ASTNode) (fuel : Nat) (cfg cfg1 cfg2 : Config),
      skipLines env.doc cfg = .proceed cfg1 →
      skipChars env.doc fuel cfg1 = some cfg2 →
      env.query cfg2.currentLine cfg2.currentCharacter = none →
      orchIter env node fuel cfg =
        .next ⟨getLeftThroughLineBreaks env.doc cfg2.pos,
            (getLeftThroughLineBreaks env.doc cfg2.pos).line,
            (getLeftThroughLineBreaks env.doc cfg2.pos).character⟩
          [QueryReq.point cfg2.currentLine cfg2.currentCharacter]) ∧
    (∀ (env : Env) (fuel : Nat) (cursor : Pos) (st : HLState),
      (highlightAstNodeUnderCursor env fuel cursor st).out = .noNodeMessage →
      env.query cursor.line cursor.character = none ∨
        ∃ item, env.query cursor.line cursor.character = some item ∧
          item.range = none) := by
  constructor
  · intro env node fuel cfg cfg1 cfg2 h1 h2 h3
    simp only [orchIter, h1, h2, h3]
  · intro env fuel cursor st h
    unfold highlightAstNodeUnderCursor at h
    generalize (if st.lastVersion ≠ (env.doc.version : Int) then
      (⟨(env.doc.version : Int), ⟨none, none⟩⟩ : HLState) else st) = st1 at h
    unfold highlightCore at h
    split at h
    · exact absurd h (highlightAstNode_ne_noNode _)
    · by_cases hpre : (lineIsSkippable (env.doc.lineText cursor.line) ||
          isSkipChar (charAt (env.doc.lineText cursor.line) cursor.character)) = true
      · rw [if_pos hpre] at h
        simp at h
      · rw [if_neg hpre] at h
        cases hq : env.query cursor.line cursor.character with
        | none => exact Or.inl rfl
        | some item =>
          simp only [hq] at h
          cases hr : item.range with
          | none => exact Or.inr ⟨item, rfl, hr⟩
          | some r =>
            simp only [hr] at h
            cases hrec : getParentAstNode env fuel (some item)
                ⟨some item, st1.vim.currentParent⟩ with
            | ok p vim2 log =>
              simp only [hrec] at h
              exact absurd h (highlightAstNode_ne_noNode _)
            | thrown => simp only [hrec] at h; simp at h
            | outOfFuel => simp only [hrec] at h; simp at h

def w8leaf : ASTNode := .mk "DeclRef" (some ⟨⟨0, 1⟩, ⟨0, 2⟩⟩) none none

def w8env : Env :=
  ⟨⟨["ab"], 0⟩, fun _ _ => none, some (.mk "TranslationUnitDecl" none none none)⟩

def w8cfg : Config := ⟨⟨0, 0⟩, 0, 0⟩

/-- Witness for C8: with a service that answers no point query, the scan
step recovers by moving left, and the caller-level message traces back to
the initial leaf query having returned nothing. -/
theorem C8_witness :
    orchIter w8env w8leaf 1 w8cfg = .next w8cfg [QueryReq.point 0 0] ∧
      (w8env.query 0 0 = none ∨
        ∃ item, w8env.query 0 0 = some item ∧ item.range = none) := by
  constructor
  · have h1 : skipLines w8env.doc w8cfg = .proceed w8cfg := by
      have hA : lineIsSkippable (Document.lineText w8env.doc 0) = false := by decide
      simp [skipLines, w8cfg, hA]
    have h2 : skipChars w8env.doc 1 w8cfg = some w8cfg := by decide
    have h := C8_noNode_recovery.1 w8env w8leaf 1 w8cfg w8cfg w8cfg h1 h2 rfl
    have hL : getLeftThroughLineBreaks w8env.doc (⟨0, 0⟩ : Pos) = ⟨0, 0⟩ := by decide
    simpa [w8cfg, hL] using h
  · exact C8_noNode_recovery.2 w8env 1 ⟨0, 0⟩ ⟨0, ⟨none, none⟩⟩ (by decide)

/-- C9 amended: the line-0 fallback of the backward scan.  First conjunct:
when the scan is skipping a blank/comment/preprocessor line and sits on
line 0 or 1, the skip lands on line 0 and triggers the whole-document-root
fallback.  Second conjunct: a scan entry whose line-skipping reaches the
fallback returns the root query's answer as the parent (and caches it), with
the null-range query as the only request — a defined terminal state, not an
error.  The scan's character loop, by contrast, need not terminate near the
top of the file (see the counterexample), so the original blanket
termination statement is not provable of the code. -/
theorem C9_top_of_file_fallback :
    (∀ (doc : Document) (cfg : Config),
      lineIsSkippable (doc.lineText cfg.currentLine) = true →
      cfg.pos.line ≤ 1 → skipLines doc cfg = .rootFallback) ∧
    (∀ (env : Env) (fuel : Nat) (node : ASTNode) (st : VimState) (cfg : Config),
      skipLines env.doc cfg = .rootFallback →
      orchLoop env (fuel + 1) node st cfg =
        .ok env.root { st with currentParent := env.root } [QueryReq.whole]) := by
  constructor
  · intro doc cfg h1 h2
    unfold skipLines
    rw [if_pos h1]
    simp only [prevLineEnd]
    rw [if_pos (by omega)]
  · intro env fuel node st cfg h
    simp only [orchLoop, engine, orchIter, h]

def w9doc : Document := ⟨["// top comment"], 5⟩

def w9root : ASTNode := .mk "TranslationUnitDecl" none none none

def w9env : Env := ⟨w9doc, fun _ _ => none, some w9root⟩

def w9node : ASTNode := .mk "DeclRef" (some ⟨⟨0, 3⟩, ⟨0, 5⟩⟩) none none

def w9st : VimState := ⟨none, none⟩

def w9cfg : Config := ⟨⟨0, 4⟩, 0, 4⟩

/-- Witness for the amended C9 at a concrete comment-only line 0. -/
theorem C9_amended_witness :
    skipLines w9doc w9cfg = .rootFallback ∧
      orchLoop w9env 1 w9node w9st w9cfg =
        .ok w9env.root { w9st with currentParent := w9env.root }
          [QueryReq.whole] := by
  have h1 : skipLines w9doc w9cfg = .rootFallback :=
    C9_top_of_file_fallback.1 w9doc w9cfg (by decide) (by decide)
  exact ⟨h1, C9_top_of_file_fallback.2 w9env 0 w9node w9st w9cfg h1⟩

def c9doc : Document := ⟨["X"], 0⟩

def c9root : ASTNode := .mk "TranslationUnitDecl" none none none

def c9env : Env := ⟨c9doc, fun _ _ => none, some c9root⟩

def c9node : ASTNode := .mk "DeclRef" (some ⟨⟨0, 1⟩, ⟨0, 2⟩⟩) none none

def c9st : VimState := ⟨none, none⟩

def c9cfg : Config := ⟨⟨0, 0⟩, 0, 0⟩

/-- C9 counterexample: near line 0 the scan need not terminate.  Line 0
holds code (`"X"`), so the line-skipping fallback never fires; the service
answers no point query (as inside a macro expansion).  One full iteration of
the scan loop from position (0,0) queries (0,0) and continues at the very
same configuration — `getLeftThroughLineBreaks` cannot move left of (0,0) —
so the backward scan revisits its own state forever and only ever exhausts
its fuel instead of reaching the whole-document-root fallback: the claimed
unconditional termination of the scan near line 0 is false of the code. -/
theorem C9_counterexample :
    orchIter c9env c9node 2 c9cfg = .next c9cfg [QueryReq.point 0 0] ∧
      orchLoop c9env 6 c9node c9st c9cfg = .outOfFuel := by
  have hA : lineIsSkippable (Document.lineText c9env.doc 0) = false := by decide
  have hskip : skipLines c9env.doc c9cfg = .proceed c9cfg := by
    simp [skipLines, c9cfg, hA]
  have hcs : ∀ k, skipChars c9env.doc (k + 1) c9cfg = some c9cfg := by
    intro k
    have hc : isSkipChar (charAt (Document.lineText c9env.doc 0) 0) = false := by
      decide
    simp [skipChars, c9cfg, hc]
  have hiter : ∀ k, orchIter c9env c9node (k + 1) c9cfg =
      .next c9cfg [QueryReq.point 0 0] := by
    intro k
    have hq : c9env.query c9cfg.currentLine c9cfg.currentCharacter = none := rfl
    simp only [orchIter, hskip, hcs k, hq]
    simp [c9cfg, c9env, c9doc, getLeftThroughLineBreaks, Document.lineText,
      Document.lineLength]
  have hloop : ∀ f, engine c9env f (.loop c9node c9st c9cfg) = .outOfFuel := by
    intro f
    induction f with
    | zero => simp [engine]
    | succ f ih =>
      simp only [engine]
      cases f with
      | zero =>
        have hstuck : orchIter c9env c9node 0 c9cfg = .stuck := by
          simp [orchIter, hskip, skipChars]
        simp [hstuck]
      | succ k =>
        simp only [hiter k, ih]
  exact ⟨hiter 1, by simpa [orchLoop] using hloop 6⟩
